import Mathlib

/-!
# Verification of the envibe core: dotenv codec, classifier, access filter

Shallow embedding of the repository's core functions.  JavaScript strings
are modelled as `List Char` (`JStr`); `Record<string, string>` objects are
modelled as association lists in insertion order (`EnvMap`), with the JS
assignment semantics `result[key] = value` captured by `jsInsert`.

The dotenv codec (`parseEnvContent`, `serializeEnv`, `updateEnvContent`)
is translated line by line from `src/utils/dotenv.ts`.  The classifier and
access filter sources are not present in the repository snapshot (only
their test files are), so those definitions are modelled from the spec and
say so in their doc comments.
-/

namespace Envibe

/-- JavaScript strings, modelled as lists of characters. -/
abbrev JStr := List Char

/-- `Record<string, string>` in insertion order. -/
abbrev EnvMap := List (JStr × JStr)

/-- The JavaScript whitespace set used by `String.prototype.trim` and by the
regex class `\s`: tab, LF, VT, FF, CR, space, NBSP, and the Unicode space
separators plus BOM. -/
def isJsWs (c : Char) : Bool :=
  c = '\t' || c = '\n' || c = Char.ofNat 0x0B || c = Char.ofNat 0x0C ||
  c = '\r' || c = ' ' || c = Char.ofNat 0xA0 || c = Char.ofNat 0x1680 ||
  (0x2000 ≤ c.toNat && c.toNat ≤ 0x200A) || c = Char.ofNat 0x2028 ||
  c = Char.ofNat 0x2029 || c = Char.ofNat 0x202F || c = Char.ofNat 0x205F ||
  c = Char.ofNat 0x3000 || c = Char.ofNat 0xFEFF

/-- JS `String.prototype.trim`: drop JS whitespace from both ends. -/
def jsTrim (s : JStr) : JStr :=
  ((s.dropWhile isJsWs).reverse.dropWhile isJsWs).reverse

/-- JS `content.split("\n")`.  Never returns the empty list:
`"".split("\n")` is `[""]`. -/
def splitOnNl : JStr → List JStr
  | [] => [[]]
  | c :: rest =>
    match splitOnNl rest with
    | [] => [[c]]
    | h :: t => if c = '\n' then [] :: h :: t else (c :: h) :: t

/-- JS `lines.join("\n")`. -/
def joinNl : List JStr → JStr
  | [] => []
  | [l] => l
  | l :: ls => l ++ '\n' :: joinNl ls

/-- JS `value.indexOf(c)`, as an optional index of the first occurrence. -/
def firstIdx (c : Char) : JStr → Option Nat
  | [] => none
  | x :: rest => if x = c then some 0 else (firstIdx c rest).map (· + 1)

/-- JS global replace of a one-character pattern: every occurrence of `c`
becomes `r`.  Single-character patterns cannot overlap, so this is a
per-character expansion. -/
def replaceChar (c : Char) (r : JStr) (s : JStr) : JStr :=
  s.flatMap fun x => if x = c then r else [x]

/-- JS global replace of the two-character pattern `[a, b]` by `r`,
scanning left to right without overlap (the scan resumes after each
replacement, exactly as `String.prototype.replace` with a `/g` regex). -/
def replacePair (a b : Char) (r : JStr) : JStr → JStr
  | [] => []
  | x :: rest =>
    match rest with
    | [] => [x]
    | y :: rest2 =>
      if x = a ∧ y = b then r ++ replacePair a b r rest2
      else x :: replacePair a b r (y :: rest2)

/-! ## Dotenv codec, from `src/utils/dotenv.ts` -/

/-- The escape substitutions of `parseEnvContent` (dotenv.ts lines 47-54),
in the source's order: `\n`, `\r`, `\t`, `\\`, `\"`. -/
def unescapeValue (v : JStr) : JStr :=
  replacePair '\\' '"' ['"']
    (replacePair '\\' '\\' ['\\']
      (replacePair '\\' 't' ['\t']
        (replacePair '\\' 'r' ['\r']
          (replacePair '\\' 'n' ['\n'] v))))

/-- Quote stripping of `parseEnvContent` (dotenv.ts lines 39-44):
`value.slice(1, -1)` when the value starts and ends with the same quote
character. -/
def stripQuotes (v : JStr) : JStr :=
  if (v.head? = some '"' ∧ v.getLast? = some '"') ∨
     (v.head? = some '\'' ∧ v.getLast? = some '\'') then
    (v.drop 1).dropLast
  else v

/-- Inline-comment truncation of `parseEnvContent` (dotenv.ts lines
30-36): a value that does not start with a quote character is cut at the
first `#` and trimmed again. -/
def commentCut (v0 : JStr) : JStr :=
  if v0.head? ≠ some '"' ∧ v0.head? ≠ some '\'' then
    match firstIdx '#' v0 with
    | some j => jsTrim (v0.take j)
    | none => v0
  else v0

/-- The value-processing pipeline of `parseEnvContent` (dotenv.ts lines
30-54), applied to the already-trimmed raw value: inline-comment
truncation for unquoted values, quote stripping, then the escape
substitutions whenever a backslash is present. -/
def cookValue (v0 : JStr) : JStr :=
  let v2 := stripQuotes (commentCut v0)
  if v2.contains '\\' then unescapeValue v2 else v2

/-- One iteration of the `parseEnvContent` loop body (dotenv.ts lines
14-59): `none` when the line is skipped, otherwise the key/value pair that
gets assigned into the result object. -/
def parseLine (line : JStr) : Option (JStr × JStr) :=
  let t := jsTrim line
  if t = [] then none
  else if t.head? = some '#' then none
  else
    match firstIdx '=' t with
    | none => none
    | some i =>
      let key := jsTrim (t.take i)
      let v3 := cookValue (jsTrim (t.drop (i + 1)))
      if key = [] then none else some (key, v3)

/-- JS object assignment `result[key] = value`: update in place when the
key is present, append otherwise. -/
def jsInsert (m : EnvMap) (k v : JStr) : EnvMap :=
  if m.any (fun p => p.1 = k) then
    m.map fun p => if p.1 = k then (k, v) else p
  else m ++ [(k, v)]

/-- `parseEnvContent` (dotenv.ts lines 10-62). -/
def parseEnvContent (content : JStr) : EnvMap :=
  (splitOnNl content).foldl
    (fun acc line =>
      match parseLine line with
      | some (k, v) => jsInsert acc k v
      | none => acc)
    []

/-- The quoting trigger of `serializeEnv` (dotenv.ts lines 72-77): space,
`#`, newline, or either quote character. -/
def needsQuotes (v : JStr) : Bool :=
  v.contains ' ' || v.contains '#' || v.contains '\n' ||
  v.contains '"' || v.contains '\''

/-- The escape chain of `serializeEnv` (dotenv.ts lines 81-86), in the
source's order: backslash, quote, newline, carriage return, tab. -/
def escapeValue (v : JStr) : JStr :=
  replaceChar '\t' ['\\', 't']
    (replaceChar '\r' ['\\', 'r']
      (replaceChar '\n' ['\\', 'n']
        (replaceChar '"' ['\\', '"']
          (replaceChar '\\' ['\\', '\\'] v))))

/-- The per-character encoding that `escapeValue` performs on
backslash-free input. -/
def encChar (c : Char) : JStr :=
  if c = '"' then ['\\', '"']
  else if c = '\n' then ['\\', 'n']
  else if c = '\r' then ['\\', 'r']
  else if c = '\t' then ['\\', 't']
  else [c]

/-- State after the `\n` substitution. -/
def enc1 (c : Char) : JStr :=
  if c = '"' then ['\\', '"']
  else if c = '\r' then ['\\', 'r']
  else if c = '\t' then ['\\', 't']
  else [c]

/-- State after the `\r` substitution. -/
def enc2 (c : Char) : JStr :=
  if c = '"' then ['\\', '"']
  else if c = '\t' then ['\\', 't']
  else [c]

/-- State after the `\t` substitution. -/
def enc3 (c : Char) : JStr :=
  if c = '"' then ['\\', '"'] else [c]

/-- One output line of `serializeEnv` (dotenv.ts lines 79-90). -/
def entryLine (k v : JStr) : JStr :=
  if needsQuotes v then k ++ '=' :: '"' :: (escapeValue v ++ ['"'])
  else k ++ '=' :: v

/-- `serializeEnv` (dotenv.ts lines 67-94): lines joined with `\n`, plus a
trailing `\n`. -/
def serializeEnv (env : EnvMap) : JStr :=
  joinNl (env.map fun p => entryLine p.1 p.2) ++ ['\n']

/-- The regex test `^key\s*=` of `updateEnvVariable` (dotenv.ts line 143,
with `key` regex-escaped so it matches literally) applied to a trimmed
line (line 146). -/
def keyMatches (key line : JStr) : Bool :=
  let t := jsTrim line
  key.isPrefixOf t &&
    ((t.drop key.length).dropWhile isJsWs).head? == some '='

/-- Index of the first line matched by the `updateEnvVariable` loop
(dotenv.ts lines 145-156, which breaks at the first match). -/
def findMatchIdx (key : JStr) : List JStr → Option Nat
  | [] => none
  | l :: ls =>
    if keyMatches key l then some 0 else (findMatchIdx key ls).map (· + 1)

/-- The replacement / appended line built by `updateEnvVariable`
(dotenv.ts lines 148-152 and 160-164): quoted when the value contains a
space, `#`, or newline; the value is interpolated verbatim, with no
escaping. -/
def updLineFor (k v : JStr) : JStr :=
  if v.contains ' ' || v.contains '#' || v.contains '\n' then
    k ++ '=' :: '"' :: (v ++ ['"'])
  else k ++ '=' :: v

/-- The text transform performed by `updateEnvVariable` (dotenv.ts lines
129-179) on the existing file content: replace the first matching line, or
append using the three-branch tail logic, then join with `\n`. -/
def updateEnvContent (key value content : JStr) : JStr :=
  let lines := splitOnNl content
  match findMatchIdx key lines with
  | some i => joinNl (lines.set i (updLineFor key value))
  | none =>
    let nl := updLineFor key value
    match lines.getLast? with
    | none => joinNl [nl, []]
    | some last =>
      if last = [] then joinNl (lines.dropLast ++ [nl, []])
      else joinNl (lines ++ [nl])

/-! ## Access-control data model

The filter and classifier sources (`src/core/filter.ts`,
`src/core/patterns.ts`) are not part of the repository snapshot; only
their test files are.  The definitions below are therefore modelled from
the spec (§3, §4.2, §4.3), cross-checked against the expectations of
`filter.test.ts` and the patterns test file. -/

/-- Modelled from the spec: the closed `AccessLevel` enumeration (§3). -/
inductive AccessLevel where
  | FULL
  | READ_ONLY
  | PLACEHOLDER
  | SCHEMA_ONLY
  | HIDDEN
deriving DecidableEq

/-- The lowercase, human-readable name of an access level, as it appears
in generated text and denial reasons (`[full]`, "read-only", "hidden"). -/
def accessName : AccessLevel → JStr
  | .FULL => "full".toList
  | .READ_ONLY => "read-only".toList
  | .PLACEHOLDER => "placeholder".toList
  | .SCHEMA_ONLY => "schema-only".toList
  | .HIDDEN => "hidden".toList

/-- Modelled from the spec: per-variable declared policy (§3).  `default`
is named `defaultVal` here. -/
structure VariableConfig where
  access : AccessLevel
  description : Option JStr := none
  defaultVal : Option JStr := none
  pattern : Option JStr := none
  schema : Option (List (JStr × JStr)) := none
  required : Option Bool := none
deriving DecidableEq

/-- Modelled from the spec: the manifest document (§3).  The `variables`
mapping of the source is the field `vars` here (the source's field name is
a reserved word in this development). -/
structure Manifest where
  version : Nat
  vars : List (JStr × VariableConfig)

/-- Modelled from the spec: `getDefaultConfig` of the absent
`patterns.ts` — the fail-safe PLACEHOLDER default with a generic
description (§4.2). -/
def getDefaultConfig : VariableConfig :=
  { access := .PLACEHOLDER, description := some "Unclassified variable".toList }

/-- JS `toUpperCase` on ASCII names. -/
def upperJ (s : JStr) : JStr := s.map Char.toUpper

/-- Modelled from the spec: the HIDDEN patterns of the absent
`patterns.ts` — secret-signing / private-key / stripe-secret style tokens
(§4.2), matched as uppercase substrings. -/
def hiddenPats : List JStr :=
  ["STRIPE_SECRET".toList, "PRIVATE_KEY".toList, "SIGNING_SECRET".toList]

/-- Modelled from the spec: the PLACEHOLDER patterns — api-key,
secret-key, token, password, credential style tokens (§4.2). -/
def placeholderPats : List JStr :=
  ["API_KEY".toList, "ACCESS_KEY".toList, "SECRET".toList,
   "TOKEN".toList, "PASSWORD".toList, "CREDENTIAL".toList]

/-- Modelled from the spec: the READ_ONLY patterns — connection-string /
URL / URI / host style tokens (§4.2). -/
def readOnlyPats : List JStr :=
  ["CONNECTION_STRING".toList, "URL".toList, "URI".toList, "HOST".toList]

/-- Modelled from the spec: the FULL patterns — environment, feature-flag
and numeric-config style tokens (§4.2). -/
def fullPats : List JStr :=
  ["ENV".toList, "PORT".toList, "DEBUG".toList, "LOG_LEVEL".toList,
   "TIMEOUT".toList, "MAX".toList, "ENABLE".toList, "FEATURE".toList,
   "REGION".toList, "VERSION".toList]

/-- Modelled from the spec: the ordered, case-insensitive rule groups of
the absent `patterns.ts` classifier (§4.2), in priority order HIDDEN,
PLACEHOLDER, READ_ONLY, FULL.  The concrete tokens reproduce the
expectations of the patterns test file. -/
def patternGroups : List (AccessLevel × List JStr) :=
  [(.HIDDEN, hiddenPats), (.PLACEHOLDER, placeholderPats),
   (.READ_ONLY, readOnlyPats), (.FULL, fullPats)]

/-- Whether `p` occurs as a contiguous substring of `n`. -/
def isSubstrJ (p : JStr) : JStr → Bool
  | [] => p.isEmpty
  | c :: rest => p.isPrefixOf (c :: rest) || isSubstrJ p rest

/-- Whether any pattern of a group occurs in the (already uppercased)
name. -/
def groupMatches (pats : List JStr) (n : JStr) : Bool :=
  pats.any fun p => isSubstrJ p n

/-- Modelled from the spec: `classifyVariable` of the absent
`patterns.ts` (§4.2) — first matching group wins; `none` when no group
matches. -/
def classifyVariable (name : JStr) : Option VariableConfig :=
  let n := upperJ name
  (patternGroups.find? fun g => groupMatches g.2 n).map fun g =>
    { access := g.1, description := some ("Classified as ".toList ++ accessName g.1) }

/-- Modelled from the spec: `classifyVariables` of the absent
`patterns.ts` (§4.2) — batch form with the PLACEHOLDER fail-safe
default, preserving input order. -/
def classifyVariables (names : List JStr) : List (JStr × VariableConfig) :=
  names.map fun n => (n, (classifyVariable n).getD getDefaultConfig)

/-- Modelled from the spec: the derived `AIVisibleVariable` projection
record (§3); the optional description is not carried because no claim
depends on it. -/
structure AIVisibleVariable where
  key : JStr
  displayValue : JStr
  access : AccessLevel
  canModify : Bool
deriving DecidableEq

/-- Rendering of a `SCHEMA_ONLY` schema: key/value pairs joined for
display (§4.3). -/
def renderSchema (s : List (JStr × JStr)) : JStr :=
  List.intercalate ", ".toList (s.map fun p => p.1 ++ ':' :: ' ' :: p.2)

/-- Modelled from the spec: `getDisplayValue` of the absent `filter.ts`
(§4.3) — the displayed-value table, substituting the config default (or
the empty string) when the live value is absent. -/
def getDisplayValue (key : JStr) (value? : Option JStr) (cfg : VariableConfig) : JStr :=
  let v := value?.getD (cfg.defaultVal.getD [])
  match cfg.access with
  | .FULL => v
  | .READ_ONLY => cfg.pattern.getD v
  | .PLACEHOLDER => '<' :: (key ++ ['>'])
  | .SCHEMA_ONLY =>
    match cfg.schema with
    | some s => renderSchema s
    | none => "<schema>".toList
  | .HIDDEN => []

/-- Modelled from the spec: `canModify` of the absent `filter.ts` — true
only for FULL (§4.3). -/
def canModify : AccessLevel → Bool
  | .FULL => true
  | _ => false

/-- Modelled from the spec: `canSee` of the absent `filter.ts` — true for
every level except HIDDEN (§4.3). -/
def canSee : AccessLevel → Bool
  | .HIDDEN => false
  | _ => true

/-- The effective config of a key: its manifest entry, or the classifier
default fallback when absent (§4.3). -/
def effConfig (manifest : Manifest) (k : JStr) : VariableConfig :=
  (List.lookup k manifest.vars).getD getDefaultConfig

/-- The effective access level of a key under a manifest. -/
def effAccess (manifest : Manifest) (k : JStr) : AccessLevel :=
  (effConfig manifest k).access

/-- The union of the env's and the manifest's key sets, deduplicated. -/
def unionKeys (env : EnvMap) (manifest : Manifest) : List JStr :=
  (env.map Prod.fst ++ manifest.vars.map Prod.fst).dedup

/-- The union keys in ascending lexical order. -/
def sortedUnionKeys (env : EnvMap) (manifest : Manifest) : List JStr :=
  List.insertionSort (· ≤ ·) (unionKeys env manifest)

/-- The per-key projection step of `filterForAI`: `none` for an effective
HIDDEN access, otherwise the visible record. -/
def projectVar (env : EnvMap) (manifest : Manifest) (k : JStr) : Option AIVisibleVariable :=
  let cfg := effConfig manifest k
  if cfg.access = .HIDDEN then none
  else some ⟨k, getDisplayValue k (List.lookup k env) cfg, cfg.access, canModify cfg.access⟩

/-- Modelled from the spec: `filterForAI` of the absent `filter.ts`
(§4.3) — union the key sets, default absent keys to the PLACEHOLDER
fallback, drop HIDDEN, project the rest in ascending key order. -/
def filterForAI (env : EnvMap) (manifest : Manifest) : List AIVisibleVariable :=
  (sortedUnionKeys env manifest).filterMap (projectVar env manifest)

/-- Modelled from the spec: the structured result of
`validateModification` (§4.3, §7). -/
structure ValidationResult where
  allowed : Bool
  reason : Option JStr
deriving DecidableEq

/-- Modelled from the spec: `validateModification` of the absent
`filter.ts` (§4.3) — allowed only for FULL; when denied, the reason names
the offending level in lowercase ("variable is read-only", "variable is
hidden"). -/
def validateModification (key : JStr) (manifest : Manifest) : ValidationResult :=
  let cfg := effConfig manifest key
  if cfg.access = .FULL then ⟨true, none⟩
  else ⟨false, some ("variable is ".toList ++ accessName cfg.access)⟩

/-! ## Toolkit lemmas about the string primitives -/

theorem dropWhile_eq_self_of_head (p : Char → Bool) :
    ∀ l : JStr, (∀ c, l.head? = some c → p c = false) → l.dropWhile p = l
  | [], _ => rfl
  | c :: _, h => by simp [List.dropWhile, h c rfl]

theorem jsTrim_eq_self {v : JStr}
    (h1 : ∀ c, v.head? = some c → isJsWs c = false)
    (h2 : ∀ c, v.getLast? = some c → isJsWs c = false) : jsTrim v = v := by
  unfold jsTrim
  rw [dropWhile_eq_self_of_head _ _ h1]
  rw [dropWhile_eq_self_of_head _ _ (by simpa using h2)]
  exact List.reverse_reverse v

theorem jsTrim_nil : jsTrim [] = [] := rfl

theorem dropWhile_length_le (p : Char → Bool) : ∀ l : JStr,
    (l.dropWhile p).length ≤ l.length
  | [] => le_refl _
  | c :: r => by
    by_cases h : p c
    · rw [List.dropWhile_cons_of_pos h]
      exact le_trans (dropWhile_length_le p r) (Nat.le_succ _)
    · rw [List.dropWhile_cons_of_neg h]

theorem jsTrim_length_le (v : JStr) :
    (jsTrim v).length ≤ (v.dropWhile isJsWs).length := by
  unfold jsTrim
  rw [List.length_reverse]
  calc ((v.dropWhile isJsWs).reverse.dropWhile isJsWs).length
      ≤ (v.dropWhile isJsWs).reverse.length := dropWhile_length_le _ _
    _ = (v.dropWhile isJsWs).length := List.length_reverse _

theorem jsTrim_fix_head {v : JStr} {c : Char} (hfix : jsTrim v = v)
    (hc : v.head? = some c) : isJsWs c = false := by
  by_contra hq
  rw [Bool.not_eq_false] at hq
  cases v with
  | nil => simp at hc
  | cons a r =>
    have ha : a = c := by simpa using hc
    subst ha
    have h1 := jsTrim_length_le (a :: r)
    rw [hfix] at h1
    rw [List.dropWhile_cons_of_pos (by simpa using hq)] at h1
    have h2 := dropWhile_length_le isJsWs r
    simp at h1
    omega

theorem jsTrim_fix_last {v : JStr} {c : Char} (hfix : jsTrim v = v)
    (hc : v.getLast? = some c) : isJsWs c = false := by
  by_contra hq
  rw [Bool.not_eq_false] at hq
  have hvne : v ≠ [] := by rintro rfl; simp at hc
  by_cases hwe : v.dropWhile isJsWs = []
  · have hnil : jsTrim v = [] := by
      unfold jsTrim; rw [hwe]; rfl
    rw [hfix] at hnil
    exact hvne hnil
  · have hlast : (v.dropWhile isJsWs).getLast? = some c := by
      obtain ⟨t, ht⟩ := List.dropWhile_suffix (l := v) (p := isJsWs)
      have hcat : (t ++ v.dropWhile isJsWs).getLast? =
          (v.dropWhile isJsWs).getLast? :=
        List.getLast?_append_of_ne_nil t hwe
      rw [← hcat, ht]
      exact hc
    have hhr : (v.dropWhile isJsWs).reverse.head? = some c := by
      rw [List.head?_reverse]; exact hlast
    cases hwr : (v.dropWhile isJsWs).reverse with
    | nil => rw [hwr] at hhr; simp at hhr
    | cons a tl =>
      have ha : a = c := by rw [hwr] at hhr; simpa using hhr
      subst ha
      have hlen : (jsTrim v).length ≤ tl.length := by
        unfold jsTrim
        rw [List.length_reverse, hwr,
          List.dropWhile_cons_of_pos (by simpa using hq)]
        exact dropWhile_length_le _ _
      rw [hfix] at hlen
      have h2 : (v.dropWhile isJsWs).reverse.length = tl.length + 1 := by
        rw [hwr]; simp
      rw [List.length_reverse] at h2
      have h3 := dropWhile_length_le isJsWs v
      omega

theorem splitOnNl_ne_nil (s : JStr) : splitOnNl s ≠ [] := by
  cases s with
  | nil => simp [splitOnNl]
  | cons c rest =>
    unfold splitOnNl
    cases h : splitOnNl rest with
    | nil => simp
    | cons a t => by_cases hc : c = '\n' <;> simp [hc]

theorem splitOnNl_of_not_mem {s : JStr} (h : '\n' ∉ s) : splitOnNl s = [s] := by
  induction s with
  | nil => rfl
  | cons c rest ih =>
    have hc : c ≠ '\n' := fun hcc => h (hcc ▸ List.mem_cons_self c rest)
    have hrest : '\n' ∉ rest := fun hm => h (List.mem_cons_of_mem c hm)
    unfold splitOnNl
    rw [ih hrest]
    simp [hc]

theorem splitOnNl_append_nl (u w : JStr) (hu : '\n' ∉ u) :
    splitOnNl (u ++ '\n' :: w) = u :: splitOnNl w := by
  induction u with
  | nil =>
    simp only [List.nil_append]
    cases h : splitOnNl w with
    | nil => exact absurd h (splitOnNl_ne_nil w)
    | cons a t => simp [splitOnNl, h]
  | cons c u ih =>
    have hc : c ≠ '\n' := fun hcc => hu (hcc ▸ List.mem_cons_self c u)
    have hu' : '\n' ∉ u := fun hm => hu (List.mem_cons_of_mem c hm)
    simp only [List.cons_append, splitOnNl, List.append_eq]
    rw [ih hu']
    simp [hc]

theorem joinNl_cons (x : JStr) {ys : List JStr} (h : ys ≠ []) :
    joinNl (x :: ys) = x ++ '\n' :: joinNl ys := by
  cases ys with
  | nil => exact absurd rfl h
  | cons b t => rfl

theorem joinNl_splitOnNl (s : JStr) : joinNl (splitOnNl s) = s := by
  induction s with
  | nil => rfl
  | cons c rest ih =>
    cases h : splitOnNl rest with
    | nil => exact absurd h (splitOnNl_ne_nil rest)
    | cons a t =>
      rw [h] at ih
      simp only [splitOnNl, h]
      by_cases hc : c = '\n'
      · subst hc
        rw [if_pos rfl, joinNl_cons _ (show a :: t ≠ [] from by simp), ih]
        rfl
      · rw [if_neg hc]
        cases t with
        | nil =>
          have ha : a = rest := ih
          rw [ha]; rfl
        | cons b t' =>
          rw [joinNl_cons a (by simp)] at ih
          rw [joinNl_cons (c :: a) (by simp), ← ih]
          simp

theorem splitOnNl_snoc_nl (u : JStr) :
    splitOnNl (u ++ ['\n']) = splitOnNl u ++ [[]] := by
  induction u with
  | nil => rfl
  | cons c u ih =>
    cases h : splitOnNl u with
    | nil => exact absurd h (splitOnNl_ne_nil u)
    | cons a t =>
      simp only [List.cons_append, splitOnNl, List.append_eq]
      rw [ih, h]
      by_cases hc : c = '\n' <;> simp [hc]

theorem joinNl_append_single (xs : List JStr) (y : JStr) (h : xs ≠ []) :
    joinNl (xs ++ [y]) = joinNl xs ++ '\n' :: y := by
  induction xs with
  | nil => exact absurd rfl h
  | cons x xs ih =>
    cases xs with
    | nil => rfl
    | cons b t =>
      rw [List.cons_append, joinNl_cons _ (by simp),
        joinNl_cons _ (by simp), ih (by simp)]
      simp

theorem firstIdx_eq_none {c : Char} : ∀ {l : JStr}, c ∉ l → firstIdx c l = none
  | [], _ => rfl
  | x :: r, h => by
    have hx : x ≠ c := fun hxc => h (hxc ▸ List.mem_cons_self x r)
    have hr : c ∉ r := fun hm => h (List.mem_cons_of_mem x hm)
    simp [firstIdx, hx, firstIdx_eq_none hr]

theorem firstIdx_append {c : Char} (u w : JStr) (h : c ∉ u) :
    firstIdx c (u ++ c :: w) = some u.length := by
  induction u with
  | nil => simp [firstIdx]
  | cons x u ih =>
    have hx : x ≠ c := fun hxc => h (hxc ▸ List.mem_cons_self x u)
    have hu : c ∉ u := fun hm => h (List.mem_cons_of_mem x hm)
    simp [firstIdx, hx, ih hu]

theorem take_len_append (u w : JStr) : (u ++ w).take u.length = u := by
  simp

theorem drop_len_succ_append (u : JStr) (c : Char) (w : JStr) :
    (u ++ c :: w).drop (u.length + 1) = w := by
  have h : u ++ c :: w = (u ++ [c]) ++ w := by simp
  have hl : u.length + 1 = (u ++ [c]).length := by simp
  rw [h, hl, List.drop_left]

theorem replacePair_cons_ne {a b x : Char} {r w : JStr} (h : x ≠ a) :
    replacePair a b r (x :: w) = x :: replacePair a b r w := by
  cases w with
  | nil => simp [replacePair]
  | cons y w' => simp [replacePair, h]

theorem replacePair_cons_ne_snd {a b y : Char} {r w : JStr} (h : y ≠ b) :
    replacePair a b r (a :: y :: w) = a :: replacePair a b r (y :: w) := by
  simp [replacePair, h]

theorem replacePair_cons_match (a b : Char) (r w : JStr) :
    replacePair a b r (a :: b :: w) = r ++ replacePair a b r w := by
  simp [replacePair]

theorem replacePair_atom2 {a b y : Char} {r w : JStr} (h1 : y ≠ b) (h2 : y ≠ a) :
    replacePair a b r (a :: y :: w) = a :: y :: replacePair a b r w := by
  rw [replacePair_cons_ne_snd h1, replacePair_cons_ne h2]

/-! ## Escape/unescape correctness on backslash-free values

On a value without backslashes, the serializer's escape chain acts as a
per-character encoding, and the parser's five sequential substitutions
decode it stage by stage. -/

theorem replaceChar_append (c : Char) (r u w : JStr) :
    replaceChar c r (u ++ w) = replaceChar c r u ++ replaceChar c r w := by
  simp [replaceChar]

theorem escapeValue_append (u w : JStr) :
    escapeValue (u ++ w) = escapeValue u ++ escapeValue w := by
  simp [escapeValue, replaceChar_append]

theorem escapeValue_cons (c : Char) (v : JStr) :
    escapeValue (c :: v) = escapeValue [c] ++ escapeValue v := by
  have h : c :: v = [c] ++ v := rfl
  rw [h, escapeValue_append]

theorem escapeValue_single {c : Char} (h : c ≠ '\\') :
    escapeValue [c] = encChar c := by
  by_cases h1 : c = '"'
  · subst h1; rfl
  by_cases h2 : c = '\n'
  · subst h2; rfl
  by_cases h3 : c = '\r'
  · subst h3; rfl
  by_cases h4 : c = '\t'
  · subst h4; rfl
  simp [escapeValue, replaceChar, encChar, h, h1, h2, h3, h4]

theorem escapeValue_eq_flatMap : ∀ {v : JStr}, '\\' ∉ v →
    escapeValue v = v.flatMap encChar
  | [], _ => rfl
  | c :: v, h => by
    have hc : c ≠ '\\' := fun he => h (he ▸ List.mem_cons_self c v)
    have hv : '\\' ∉ v := fun hm => h (List.mem_cons_of_mem c hm)
    rw [escapeValue_cons, escapeValue_single hc, escapeValue_eq_flatMap hv,
      List.flatMap_cons]

theorem replacePair_flatMap {a b : Char} {r : JStr} {f g : Char → JStr}
    (hstep : ∀ c (w : JStr), c ≠ '\\' →
      replacePair a b r (f c ++ w) = g c ++ replacePair a b r w) :
    ∀ {v : JStr}, '\\' ∉ v →
      replacePair a b r (v.flatMap f) = v.flatMap g
  | [], _ => rfl
  | c :: v, h => by
    have hc : c ≠ '\\' := fun he => h (he ▸ List.mem_cons_self c v)
    have hv : '\\' ∉ v := fun hm => h (List.mem_cons_of_mem c hm)
    rw [List.flatMap_cons, List.flatMap_cons, hstep c _ hc,
      replacePair_flatMap hstep hv]

theorem pass1_step (c : Char) (w : JStr) (hc : c ≠ '\\') :
    replacePair '\\' 'n' ['\n'] (encChar c ++ w) =
      enc1 c ++ replacePair '\\' 'n' ['\n'] w := by
  by_cases h1 : c = '"'
  · subst h1
    rw [show encChar '"' = ['\\', '"'] from by decide,
      show enc1 '"' = ['\\', '"'] from by decide]
    simp only [List.cons_append, List.nil_append]
    rw [replacePair_atom2 (by decide) (by decide)]
  by_cases h2 : c = '\n'
  · subst h2
    rw [show encChar '\n' = ['\\', 'n'] from by decide,
      show enc1 '\n' = ['\n'] from by decide]
    simp only [List.cons_append, List.nil_append]
    rw [replacePair_cons_match]
    rfl
  by_cases h3 : c = '\r'
  · subst h3
    rw [show encChar '\r' = ['\\', 'r'] from by decide,
      show enc1 '\r' = ['\\', 'r'] from by decide]
    simp only [List.cons_append, List.nil_append]
    rw [replacePair_atom2 (by decide) (by decide)]
  by_cases h4 : c = '\t'
  · subst h4
    rw [show encChar '\t' = ['\\', 't'] from by decide,
      show enc1 '\t' = ['\\', 't'] from by decide]
    simp only [List.cons_append, List.nil_append]
    rw [replacePair_atom2 (by decide) (by decide)]
  rw [show encChar c = [c] from by simp [encChar, h1, h2, h3, h4],
    show enc1 c = [c] from by simp [enc1, h1, h3, h4]]
  simp only [List.cons_append, List.nil_append]
  rw [replacePair_cons_ne hc]

theorem pass2_step (c : Char) (w : JStr) (hc : c ≠ '\\') :
    replacePair '\\' 'r' ['\r'] (enc1 c ++ w) =
      enc2 c ++ replacePair '\\' 'r' ['\r'] w := by
  by_cases h1 : c = '"'
  · subst h1
    rw [show enc1 '"' = ['\\', '"'] from by decide,
      show enc2 '"' = ['\\', '"'] from by decide]
    simp only [List.cons_append, List.nil_append]
    rw [replacePair_atom2 (by decide) (by decide)]
  by_cases h3 : c = '\r'
  · subst h3
    rw [show enc1 '\r' = ['\\', 'r'] from by decide,
      show enc2 '\r' = ['\r'] from by decide]
    simp only [List.cons_append, List.nil_append]
    rw [replacePair_cons_match]
    rfl
  by_cases h4 : c = '\t'
  · subst h4
    rw [show enc1 '\t' = ['\\', 't'] from by decide,
      show enc2 '\t' = ['\\', 't'] from by decide]
    simp only [List.cons_append, List.nil_append]
    rw [replacePair_atom2 (by decide) (by decide)]
  rw [show enc1 c = [c] from by simp [enc1, h1, h3, h4],
    show enc2 c = [c] from by simp [enc2, h1, h4]]
  simp only [List.cons_append, List.nil_append]
  rw [replacePair_cons_ne hc]

theorem pass3_step (c : Char) (w : JStr) (hc : c ≠ '\\') :
    replacePair '\\' 't' ['\t'] (enc2 c ++ w) =
      enc3 c ++ replacePair '\\' 't' ['\t'] w := by
  by_cases h1 : c = '"'
  · subst h1
    rw [show enc2 '"' = ['\\', '"'] from by decide,
      show enc3 '"' = ['\\', '"'] from by decide]
    simp only [List.cons_append, List.nil_append]
    rw [replacePair_atom2 (by decide) (by decide)]
  by_cases h4 : c = '\t'
  · subst h4
    rw [show enc2 '\t' = ['\\', 't'] from by decide,
      show enc3 '\t' = ['\t'] from by decide]
    simp only [List.cons_append, List.nil_append]
    rw [replacePair_cons_match]
    rfl
  rw [show enc2 c = [c] from by simp [enc2, h1, h4],
    show enc3 c = [c] from by simp [enc3, h1]]
  simp only [List.cons_append, List.nil_append]
  rw [replacePair_cons_ne hc]

theorem pass4_step (c : Char) (w : JStr) (hc : c ≠ '\\') :
    replacePair '\\' '\\' ['\\'] (enc3 c ++ w) =
      enc3 c ++ replacePair '\\' '\\' ['\\'] w := by
  by_cases h1 : c = '"'
  · subst h1
    rw [show enc3 '"' = ['\\', '"'] from by decide]
    simp only [List.cons_append, List.nil_append]
    rw [replacePair_atom2 (by decide) (by decide)]
  rw [show enc3 c = [c] from by simp [enc3, h1]]
  simp only [List.cons_append, List.nil_append]
  rw [replacePair_cons_ne hc]

theorem pass5_step (c : Char) (w : JStr) (hc : c ≠ '\\') :
    replacePair '\\' '"' ['"'] (enc3 c ++ w) =
      [c] ++ replacePair '\\' '"' ['"'] w := by
  by_cases h1 : c = '"'
  · subst h1
    rw [show enc3 '"' = ['\\', '"'] from by decide]
    simp only [List.cons_append, List.nil_append]
    rw [replacePair_cons_match]
    rfl
  rw [show enc3 c = [c] from by simp [enc3, h1]]
  simp only [List.cons_append, List.nil_append]
  rw [replacePair_cons_ne hc]

/-- On a backslash-free value, the parser's escape substitutions exactly
invert the serializer's escape chain. -/
theorem unescape_escape {v : JStr} (h : '\\' ∉ v) :
    unescapeValue (escapeValue v) = v := by
  rw [escapeValue_eq_flatMap h]
  unfold unescapeValue
  rw [replacePair_flatMap pass1_step h, replacePair_flatMap pass2_step h,
    replacePair_flatMap pass3_step h, replacePair_flatMap pass4_step h,
    replacePair_flatMap pass5_step h]
  simp

/-- If the escaped form of a backslash-free value contains no backslash,
the escape chain did not change the value at all. -/
theorem escapeValue_no_bs : ∀ {v : JStr}, '\\' ∉ v →
    '\\' ∉ escapeValue v → escapeValue v = v
  | [], _, _ => rfl
  | c :: v, hv, he => by
    have hc : c ≠ '\\' := fun h => hv (h ▸ List.mem_cons_self c v)
    have hv' : '\\' ∉ v := fun h => hv (List.mem_cons_of_mem c h)
    rw [escapeValue_cons, escapeValue_single hc] at he ⊢
    have henc : '\\' ∉ encChar c := fun h => he (List.mem_append_left _ h)
    have hrest : '\\' ∉ escapeValue v := fun h => he (List.mem_append_right _ h)
    have hplain : encChar c = [c] := by
      by_cases h1 : c = '"'
      · subst h1; exact absurd (show '\\' ∈ encChar '"' from by decide) henc
      by_cases h2 : c = '\n'
      · subst h2; exact absurd (show '\\' ∈ encChar '\n' from by decide) henc
      by_cases h3 : c = '\r'
      · subst h3; exact absurd (show '\\' ∈ encChar '\r' from by decide) henc
      by_cases h4 : c = '\t'
      · subst h4; exact absurd (show '\\' ∈ encChar '\t' from by decide) henc
      simp [encChar, h1, h2, h3, h4]
    rw [hplain, escapeValue_no_bs hv' hrest]
    rfl

/-- The escaped form of a backslash-free value never contains a raw
newline (newlines are encoded as backslash-n). -/
theorem nl_not_mem_escape : ∀ {v : JStr}, '\\' ∉ v → '\n' ∉ escapeValue v
  | [], _ => by simp [escapeValue, replaceChar]
  | c :: v, hv => by
    have hc : c ≠ '\\' := fun h => hv (h ▸ List.mem_cons_self c v)
    have hv' : '\\' ∉ v := fun h => hv (List.mem_cons_of_mem c h)
    rw [escapeValue_cons, escapeValue_single hc]
    intro hmem
    rcases List.mem_append.mp hmem with hin | hin
    · revert hin
      by_cases h1 : c = '"'
      · subst h1; decide
      by_cases h2 : c = '\n'
      · subst h2; decide
      by_cases h3 : c = '\r'
      · subst h3; decide
      by_cases h4 : c = '\t'
      · subst h4; decide
      rw [show encChar c = [c] from by simp [encChar, h1, h2, h3, h4]]
      intro hin
      have hce : '\n' = c := by simpa using hin
      exact h2 hce.symm
    · exact nl_not_mem_escape hv' hin

/-! ## Characterisation of `parseLine` on well-formed lines -/

theorem contains_eq_false {c : Char} {l : JStr} (h : c ∉ l) :
    l.contains c = false := by
  simp [List.elem_iff]
  exact h

theorem not_mem_of_contains_false {c : Char} {l : JStr}
    (h : l.contains c = false) : c ∉ l := by
  simpa [List.elem_iff] using h

theorem dropWhile_append_single {p : Char → Bool} {c : Char} (h : p c = false) :
    ∀ w : JStr, (w ++ [c]).dropWhile p = w.dropWhile p ++ [c]
  | [] => by simp [List.dropWhile, h]
  | x :: w => by
    by_cases hx : p x
    · rw [List.cons_append, List.dropWhile_cons_of_pos hx,
        List.dropWhile_cons_of_pos hx]
      exact dropWhile_append_single h w
    · rw [List.cons_append, List.dropWhile_cons_of_neg hx,
        List.dropWhile_cons_of_neg hx, List.cons_append]

theorem jsTrim_cons_not_ws {c : Char} {u : JStr} (h : isJsWs c = false) :
    jsTrim (c :: u) = c :: (u.reverse.dropWhile isJsWs).reverse := by
  unfold jsTrim
  rw [List.dropWhile_cons_of_neg (by simp [h]), List.reverse_cons,
    dropWhile_append_single h, List.reverse_append]
  simp

theorem head?_jsTrim_cons {c : Char} {u : JStr} (h : isJsWs c = false) :
    (jsTrim (c :: u)).head? = some c := by
  rw [jsTrim_cons_not_ws h]; rfl

theorem stripQuotes_of_head {v : JStr} (h1 : v.head? ≠ some '"')
    (h2 : v.head? ≠ some '\'') : stripQuotes v = v := by
  unfold stripQuotes
  rw [if_neg]
  rintro (⟨ha, _⟩ | ⟨ha, _⟩)
  · exact h1 ha
  · exact h2 ha

theorem commentCut_dq (w : JStr) : commentCut ('"' :: w) = '"' :: w := by
  unfold commentCut
  rw [if_neg]
  rintro ⟨hq, -⟩
  exact hq rfl

theorem commentCut_sq (w : JStr) : commentCut ('\'' :: w) = '\'' :: w := by
  unfold commentCut
  rw [if_neg]
  rintro ⟨-, hq⟩
  exact hq rfl

theorem commentCut_unquoted {v : JStr} (h1 : v.head? ≠ some '"')
    (h2 : v.head? ≠ some '\'') (h3 : '#' ∉ v) : commentCut v = v := by
  unfold commentCut
  rw [if_pos (show v.head? ≠ some '"' ∧ v.head? ≠ some '\'' from ⟨h1, h2⟩),
    firstIdx_eq_none h3]

theorem commentCut_hash {v : JStr} {i : Nat} (h1 : v.head? ≠ some '"')
    (h2 : v.head? ≠ some '\'') (hidx : firstIdx '#' v = some i) :
    commentCut v = jsTrim (v.take i) := by
  unfold commentCut
  rw [if_pos (show v.head? ≠ some '"' ∧ v.head? ≠ some '\'' from ⟨h1, h2⟩),
    hidx]

theorem cookValue_of_strip {v0 e : JStr}
    (h : stripQuotes (commentCut v0) = e) :
    cookValue v0 = if e.contains '\\' then unescapeValue e else e := by
  unfold cookValue
  rw [h]

/-- An unquoted, `#`-free value passes through unchanged except for the
escape substitutions. -/
theorem cookValue_unquoted {v : JStr} (h1 : v.head? ≠ some '"')
    (h2 : v.head? ≠ some '\'') (h3 : '#' ∉ v) :
    cookValue v = if v.contains '\\' then unescapeValue v else v :=
  cookValue_of_strip
    (by rw [commentCut_unquoted h1 h2 h3, stripQuotes_of_head h1 h2])

/-- A double-quoted value is exempt from comment truncation, loses its
quotes, and then undergoes the escape substitutions. -/
theorem cookValue_dquoted (e : JStr) :
    cookValue ('"' :: (e ++ ['"'])) =
      if e.contains '\\' then unescapeValue e else e := by
  have hlast : ('"' :: (e ++ ['"'])).getLast? = some '"' := by
    rw [show ('"' :: (e ++ ['"'])) = ('"' :: e) ++ ['"'] from by simp,
      List.getLast?_concat]
  have hstrip : stripQuotes ('"' :: (e ++ ['"'])) = e := by
    unfold stripQuotes
    rw [if_pos (Or.inl ⟨rfl, hlast⟩)]
    simp
  exact cookValue_of_strip (by rw [commentCut_dq, hstrip])

/-- A single-quoted value is likewise exempt from comment truncation,
loses its quotes, and then undergoes the escape substitutions. -/
theorem cookValue_squoted (e : JStr) :
    cookValue ('\'' :: (e ++ ['\''])) =
      if e.contains '\\' then unescapeValue e else e := by
  have hlast : ('\'' :: (e ++ ['\''])).getLast? = some '\'' := by
    rw [show ('\'' :: (e ++ ['\''])) = ('\'' :: e) ++ ['\''] from by simp,
      List.getLast?_concat]
  have hstrip : stripQuotes ('\'' :: (e ++ ['\''])) = e := by
    unfold stripQuotes
    rw [if_pos (Or.inr ⟨rfl, hlast⟩)]
    simp
  exact cookValue_of_strip (by rw [commentCut_sq, hstrip])

/-- Parsing a line of the exact shape `key=rest`, with a well-formed key
and an already-trimmed rest, isolates the key and cooks the rest. -/
theorem parseLine_split (k rest : JStr) (hk1 : k ≠ []) (hk2 : jsTrim k = k)
    (hk3 : '=' ∉ k) (hk4 : k.head? ≠ some '#') (hrt : jsTrim rest = rest) :
    parseLine (k ++ '=' :: rest) = some (k, cookValue rest) := by
  obtain ⟨a, k', rfl⟩ : ∃ a k', k = a :: k' := by
    cases k with
    | nil => exact absurd rfl hk1
    | cons a k' => exact ⟨a, k', rfl⟩
  have hhead : isJsWs a = false := jsTrim_fix_head hk2 rfl
  have htr : jsTrim ((a :: k') ++ '=' :: rest) = (a :: k') ++ '=' :: rest := by
    apply jsTrim_eq_self
    · intro c hc
      have hca : a = c := by simpa using hc
      subst hca; exact hhead
    · intro c hc
      rw [List.getLast?_append_cons] at hc
      cases rest with
      | nil =>
        have hce : '=' = c := by simpa using hc
        subst hce; decide
      | cons r0 r' =>
        rw [List.getLast?_cons_cons] at hc
        exact jsTrim_fix_last hrt hc
  have hidx : firstIdx '=' ((a :: k') ++ '=' :: rest) =
      some (a :: k').length := firstIdx_append _ _ hk3
  simp only [parseLine, htr, hidx]
  rw [take_len_append, drop_len_succ_append, hk2, hrt]
  simp only [List.cons_append]
  rw [if_neg (by simp), if_neg (by simpa using hk4), if_neg (by simp)]

/-- The two quoting triggers of `serializeEnv` split `needsQuotes` into
character non-membership facts. -/
theorem needsQuotes_false_facts {v : JStr} (h : needsQuotes v = false) :
    ' ' ∉ v ∧ '#' ∉ v ∧ '\n' ∉ v ∧ '"' ∉ v ∧ '\'' ∉ v := by
  unfold needsQuotes at h
  simp only [Bool.or_eq_false_iff] at h
  obtain ⟨⟨⟨⟨h1, h2⟩, h3⟩, h4⟩, h5⟩ := h
  exact ⟨not_mem_of_contains_false h1, not_mem_of_contains_false h2,
    not_mem_of_contains_false h3, not_mem_of_contains_false h4,
    not_mem_of_contains_false h5⟩

/-- Round trip of one serialized entry: a line emitted by `serializeEnv`
for a well-formed key and a backslash-free value parses back to exactly
that pair. -/
theorem parseLine_entryLine (k v : JStr) (hk1 : k ≠ []) (hk2 : jsTrim k = k)
    (hk3 : '=' ∉ k) (hk4 : k.head? ≠ some '#')
    (hbs : '\\' ∉ v) (hunq : needsQuotes v = false → jsTrim v = v) :
    parseLine (entryLine k v) = some (k, v) := by
  by_cases hq : needsQuotes v
  · have hrt : jsTrim ('"' :: (escapeValue v ++ ['"'])) =
        '"' :: (escapeValue v ++ ['"']) := by
      apply jsTrim_eq_self
      · intro c hc
        have hcq : '"' = c := by simpa using hc
        subst hcq; decide
      · intro c hc
        rw [show ('"' :: (escapeValue v ++ ['"'])) =
            ('"' :: escapeValue v) ++ ['"'] from by simp,
          List.getLast?_concat] at hc
        have hcq : '"' = c := by simpa using hc
        subst hcq; decide
    have hline : entryLine k v = k ++ '=' :: ('"' :: (escapeValue v ++ ['"'])) := by
      unfold entryLine
      rw [if_pos hq]
    rw [hline, parseLine_split k _ hk1 hk2 hk3 hk4 hrt, cookValue_dquoted]
    by_cases hc : (escapeValue v).contains '\\' = true
    · rw [if_pos hc, unescape_escape hbs]
    · rw [if_neg hc,
        escapeValue_no_bs hbs (not_mem_of_contains_false (by simpa using hc))]
  · have hq' : needsQuotes v = false := by simpa using hq
    have hrt : jsTrim v = v := hunq hq'
    obtain ⟨-, hhash, -, hdq, hsq⟩ := needsQuotes_false_facts hq'
    have hline : entryLine k v = k ++ '=' :: v := by
      unfold entryLine
      rw [if_neg hq]
    have h1 : v.head? ≠ some '"' := by
      intro hh
      cases v with
      | nil => simp at hh
      | cons a t =>
        have ha : a = '"' := Option.some.inj hh
        subst ha
        exact hdq (List.mem_cons_self _ _)
    have h2 : v.head? ≠ some '\'' := by
      intro hh
      cases v with
      | nil => simp at hh
      | cons a t =>
        have ha : a = '\'' := Option.some.inj hh
        subst ha
        exact hsq (List.mem_cons_self _ _)
    rw [hline, parseLine_split k v hk1 hk2 hk3 hk4 hrt, cookValue_unquoted h1 h2 hhash,
      if_neg (fun hcc => hbs (by simpa [List.elem_iff] using hcc))]

/-! ## Assembly: whole-file round trip -/

theorem parseLine_nil : parseLine [] = none := rfl

theorem nl_not_mem_entryLine {k v : JStr} (hk : '\n' ∉ k) (hbs : '\\' ∉ v) :
    '\n' ∉ entryLine k v := by
  by_cases hq : needsQuotes v
  · unfold entryLine
    rw [if_pos hq]
    intro hmem
    simp only [List.mem_append, List.mem_cons, List.not_mem_nil,
      or_false] at hmem
    rcases hmem with hin | hin | hin | hin | hin
    · exact hk hin
    · exact absurd hin (by decide)
    · exact absurd hin (by decide)
    · exact nl_not_mem_escape hbs hin
    · exact absurd hin (by decide)
  · unfold entryLine
    rw [if_neg hq]
    have hnl := (needsQuotes_false_facts (by simpa using hq)).2.2.1
    intro hmem
    simp only [List.mem_append, List.mem_cons] at hmem
    rcases hmem with hin | hin | hin
    · exact hk hin
    · exact absurd hin (by decide)
    · exact hnl hin

theorem splitOnNl_joinNl_lines : ∀ (ls : List JStr), ls ≠ [] →
    (∀ l ∈ ls, '\n' ∉ l) →
    splitOnNl (joinNl ls ++ ['\n']) = ls ++ [[]]
  | [], h, _ => absurd rfl h
  | [l], _, hnl => by
    rw [show joinNl [l] = l from rfl, splitOnNl_snoc_nl,
      splitOnNl_of_not_mem (hnl l (by simp))]
  | l :: l2 :: t, _, hnl => by
    rw [joinNl_cons l (by simp), List.append_assoc, List.cons_append,
      splitOnNl_append_nl l _ (hnl l (by simp)),
      splitOnNl_joinNl_lines (l2 :: t) (by simp)
        (fun x hx => hnl x (List.mem_cons_of_mem l hx))]
    rfl

theorem foldl_jsInsert_entries :
    ∀ (m : EnvMap) (acc : EnvMap),
      (m.map Prod.fst).Nodup →
      (∀ p ∈ m, acc.any (fun q => q.1 = p.1) = false) →
      (∀ p ∈ m, parseLine (entryLine p.1 p.2) = some p) →
      ((m.map fun p => entryLine p.1 p.2).foldl
        (fun acc line =>
          match parseLine line with
          | some (k, v) => jsInsert acc k v
          | none => acc) acc) = acc ++ m
  | [], acc, _, _, _ => by simp
  | ⟨k, v⟩ :: m', acc, hnd, hfresh, hparse => by
    have hkey : k ∉ m'.map Prod.fst ∧ (m'.map Prod.fst).Nodup := by
      rw [List.map_cons, List.nodup_cons] at hnd
      exact hnd
    have hp := hparse ⟨k, v⟩ (List.mem_cons_self _ _)
    have hins : jsInsert acc k v = acc ++ [(k, v)] := by
      unfold jsInsert
      rw [if_neg]
      rw [hfresh ⟨k, v⟩ (List.mem_cons_self _ _)]
      exact Bool.false_ne_true
    rw [List.map_cons, List.foldl_cons]
    have hstep :
        (match parseLine (entryLine k v) with
          | some (k, v) => jsInsert acc k v
          | none => acc) = acc ++ [(k, v)] := by
      rw [hp]
      exact hins
    rw [hstep,
      foldl_jsInsert_entries m' (acc ++ [(k, v)]) hkey.2
        (by
          intro q hq
          rw [List.any_append]
          rw [hfresh q (List.mem_cons_of_mem _ hq)]
          have hne : k ≠ q.1 := by
            intro he
            exact hkey.1 (he ▸ List.mem_map_of_mem Prod.fst hq)
          simp [hne])
        (fun q hq => hparse q (List.mem_cons_of_mem _ hq))]
    simp

/-! ## Claim theorems -/

/-- C2: `validateModification(key, manifest)` allows a key exactly when
its effective access level is FULL; a key absent from the manifest falls
back to the PLACEHOLDER default and is therefore denied; and every denial
carries a reason string containing the offending access level's lowercase
name.  The embedding is a total function returning the structured result,
so no exception path exists. -/
theorem validateModification_spec (key : JStr) (manifest : Manifest) :
    ((validateModification key manifest).allowed = true ↔
      effAccess manifest key = .FULL)
    ∧ (List.lookup key manifest.vars = none →
        (validateModification key manifest).allowed = false)
    ∧ ((validateModification key manifest).allowed = false →
        ∃ r, (validateModification key manifest).reason = some r ∧
          isSubstrJ (accessName (effAccess manifest key)) r = true) := by
  refine ⟨?_, ?_, ?_⟩
  · by_cases h : (effConfig manifest key).access = AccessLevel.FULL <;>
      simp [validateModification, effAccess, h]
  · intro h
    simp [validateModification, effConfig, h, getDefaultConfig]
  · intro hdenied
    cases hacc : (effConfig manifest key).access with
    | FULL => simp [validateModification, hacc] at hdenied
    | READ_ONLY =>
      refine ⟨"variable is ".toList ++ accessName .READ_ONLY, ?_, ?_⟩
      · simp [validateModification, hacc]
      · simp only [effAccess]; rw [hacc]; decide
    | PLACEHOLDER =>
      refine ⟨"variable is ".toList ++ accessName .PLACEHOLDER, ?_, ?_⟩
      · simp [validateModification, hacc]
      · simp only [effAccess]; rw [hacc]; decide
    | SCHEMA_ONLY =>
      refine ⟨"variable is ".toList ++ accessName .SCHEMA_ONLY, ?_, ?_⟩
      · simp [validateModification, hacc]
      · simp only [effAccess]; rw [hacc]; decide
    | HIDDEN =>
      refine ⟨"variable is ".toList ++ accessName .HIDDEN, ?_, ?_⟩
      · simp [validateModification, hacc]
      · simp only [effAccess]; rw [hacc]; decide

/-- Witness for C2, at the spec's Scenario E: `SECRET` declared HIDDEN is
denied and the reason mentions "hidden". -/
theorem validateModification_spec_witness :
    (validateModification "SECRET".toList
        ⟨1, [("SECRET".toList, { access := .HIDDEN })]⟩).allowed = false
    ∧ ∃ r, (validateModification "SECRET".toList
        ⟨1, [("SECRET".toList, { access := .HIDDEN })]⟩).reason = some r ∧
        isSubstrJ "hidden".toList r = true := by
  have h := validateModification_spec "SECRET".toList
    ⟨1, [("SECRET".toList, { access := .HIDDEN })]⟩
  have hden : (validateModification "SECRET".toList
      ⟨1, [("SECRET".toList, { access := .HIDDEN })]⟩).allowed = false := by decide
  refine ⟨hden, ?_⟩
  have := h.2.2 hden
  simpa [show effAccess ⟨1, [("SECRET".toList, { access := .HIDDEN })]⟩
      "SECRET".toList = .HIDDEN from by decide, accessName] using this

/-- C3: the classifier checks its case-insensitive groups in the fixed
order HIDDEN, PLACEHOLDER, READ_ONLY, FULL, first match winning, and in
particular `classify("STRIPE_SECRET")` is HIDDEN — not PLACEHOLDER — even
though the PLACEHOLDER group (via "SECRET") also matches it, in any
letter case. -/
theorem classifyVariable_priority :
    (∀ name, groupMatches hiddenPats (upperJ name) = true →
      (classifyVariable name).map (·.access) = some .HIDDEN)
    ∧ (∀ name, groupMatches hiddenPats (upperJ name) = false →
        groupMatches placeholderPats (upperJ name) = true →
      (classifyVariable name).map (·.access) = some .PLACEHOLDER)
    ∧ (∀ name, groupMatches hiddenPats (upperJ name) = false →
        groupMatches placeholderPats (upperJ name) = false →
        groupMatches readOnlyPats (upperJ name) = true →
      (classifyVariable name).map (·.access) = some .READ_ONLY)
    ∧ (∀ name, groupMatches hiddenPats (upperJ name) = false →
        groupMatches placeholderPats (upperJ name) = false →
        groupMatches readOnlyPats (upperJ name) = false →
        groupMatches fullPats (upperJ name) = true →
      (classifyVariable name).map (·.access) = some .FULL)
    ∧ (∀ name, groupMatches hiddenPats (upperJ name) = false →
        groupMatches placeholderPats (upperJ name) = false →
        groupMatches readOnlyPats (upperJ name) = false →
        groupMatches fullPats (upperJ name) = false →
      classifyVariable name = none)
    ∧ (classifyVariable "STRIPE_SECRET".toList).map (·.access) = some .HIDDEN
    ∧ groupMatches placeholderPats (upperJ "STRIPE_SECRET".toList) = true
    ∧ (classifyVariable "stripe_secret".toList).map (·.access) = some .HIDDEN := by
  refine ⟨?_, ?_, ?_, ?_, ?_, by decide, by decide, by decide⟩ <;>
    intro name <;> intros <;>
    simp [classifyVariable, patternGroups, List.find?, *]

/-- Witness for C3: the HIDDEN-priority implication applied to the
concrete name `STRIPE_SECRET`. -/
theorem classifyVariable_priority_witness :
    groupMatches hiddenPats (upperJ "STRIPE_SECRET".toList) = true
    ∧ (classifyVariable "STRIPE_SECRET".toList).map (·.access) = some .HIDDEN :=
  ⟨by decide, classifyVariable_priority.1 "STRIPE_SECRET".toList (by decide)⟩

/-- Counterexample to C4 as stated: the value made of a backslash followed
by the letter n contains no control character, yet serializing and
re-parsing the map turns it into a real newline, so the round trip fails
on a map the claim covers (it explicitly includes backslash values). -/
theorem roundTrip_counterexample :
    parseEnvContent (serializeEnv [("KEY".toList, ['\\', 'n'])]) =
      [("KEY".toList, ['\n'])]
    ∧ parseEnvContent (serializeEnv [("KEY".toList, ['\\', 'n'])]) ≠
      [("KEY".toList, ['\\', 'n'])] := by
  constructor
  · decide
  · decide

/-- C4 amended: `parseEnvContent (serializeEnv m) = m` holds for maps
whose keys are distinct, non-empty, trim-stable, and free of `=`, newline
and a leading `#`, and whose values are backslash-free — with values that
serialize unquoted additionally unchanged by trimming.  (The original
claim admitted backslash values; the counterexample forces excluding
them, and the key/trim conditions make the quantifier over all maps
well-formed.) -/
theorem roundTrip_amended (m : EnvMap)
    (hnd : (m.map Prod.fst).Nodup)
    (hkeys : ∀ p ∈ m, p.1 ≠ [] ∧ jsTrim p.1 = p.1 ∧ '\n' ∉ p.1 ∧
      '=' ∉ p.1 ∧ p.1.head? ≠ some '#')
    (hvals : ∀ p ∈ m, '\\' ∉ p.2 ∧
      (needsQuotes p.2 = false → jsTrim p.2 = p.2)) :
    parseEnvContent (serializeEnv m) = m := by
  cases m with
  | nil => decide
  | cons p0 m' =>
    have hparse : ∀ p ∈ p0 :: m', parseLine (entryLine p.1 p.2) = some p := by
      intro p hp
      obtain ⟨h1, h2, h3, h4, h5⟩ := hkeys p hp
      obtain ⟨h6, h7⟩ := hvals p hp
      rw [parseLine_entryLine p.1 p.2 h1 h2 h4 h5 h6 h7]
    have hnonl : ∀ l ∈ (p0 :: m').map (fun p => entryLine p.1 p.2),
        '\n' ∉ l := by
      intro l hl
      obtain ⟨p, hp, rfl⟩ := List.mem_map.mp hl
      exact nl_not_mem_entryLine (hkeys p hp).2.2.1 (hvals p hp).1
    unfold parseEnvContent serializeEnv
    rw [splitOnNl_joinNl_lines _ (by simp) hnonl, List.foldl_append,
      foldl_jsInsert_entries (p0 :: m') [] hnd (by simp) hparse]
    simp [parseLine_nil]

/-- Witness for C4 amended: a concrete four-entry map with plain, quoted,
spaced and multi-line values round-trips exactly. -/
theorem roundTrip_amended_witness :
    parseEnvContent (serializeEnv
      [("KEY".toList, "value".toList),
       ("MESSAGE".toList, "hello world".toList),
       ("QUOTED".toList, "say \"hi\"".toList),
       ("MULTI".toList, ('a' :: '\n' :: 'b' :: []))]) =
      [("KEY".toList, "value".toList),
       ("MESSAGE".toList, "hello world".toList),
       ("QUOTED".toList, "say \"hi\"".toList),
       ("MULTI".toList, ('a' :: '\n' :: 'b' :: []))] :=
  roundTrip_amended _ (by decide) (by decide) (by decide)

/-- C7: `serializeEnv` quotes a value exactly when it contains a space,
`#`, a newline, or either quote character; quoted values are escaped in
the order backslash, quote, newline, carriage return, tab and wrapped in
double quotes; unquoted values are emitted verbatim as `KEY=value`; the
output always ends in a newline; the empty map serializes to exactly
`"\n"`; and `{MESSAGE: "hello world"}` serializes to
`MESSAGE="hello world"` plus the trailing newline. -/
theorem serializeEnv_spec :
    serializeEnv [] = ['\n']
    ∧ serializeEnv [("MESSAGE".toList, "hello world".toList)] =
        "MESSAGE=\"hello world\"\n".toList
    ∧ (∀ env : EnvMap, (serializeEnv env).getLast? = some '\n')
    ∧ (∀ k v : JStr,
        (v.contains ' ' || v.contains '#' || v.contains '\n' ||
         v.contains '"' || v.contains '\'') = false →
        serializeEnv [(k, v)] = k ++ '=' :: (v ++ ['\n']))
    ∧ (∀ k v : JStr,
        (v.contains ' ' || v.contains '#' || v.contains '\n' ||
         v.contains '"' || v.contains '\'') = true →
        serializeEnv [(k, v)] =
          k ++ '=' :: '"' ::
            (replaceChar '\t' ['\\', 't']
              (replaceChar '\r' ['\\', 'r']
                (replaceChar '\n' ['\\', 'n']
                  (replaceChar '"' ['\\', '"']
                    (replaceChar '\\' ['\\', '\\'] v)))) ++ ['"', '\n'])) := by
  refine ⟨by decide, by decide, ?_, ?_, ?_⟩
  · intro env
    unfold serializeEnv
    rw [List.getLast?_concat]
  · intro k v h
    have h' : needsQuotes v = false := h
    show joinNl [entryLine k v] ++ ['\n'] = _
    rw [show joinNl [entryLine k v] = entryLine k v from rfl]
    unfold entryLine
    rw [if_neg (by rw [h']; exact Bool.false_ne_true)]
    simp
  · intro k v h
    have h' : needsQuotes v = true := h
    show joinNl [entryLine k v] ++ ['\n'] = _
    rw [show joinNl [entryLine k v] = entryLine k v from rfl]
    unfold entryLine
    rw [if_pos h']
    simp [escapeValue]

/-- Witness for C7: the two quoting-decision conjuncts applied at
concrete values. -/
theorem serializeEnv_spec_witness :
    (("hello world".toList.contains ' ' || "hello world".toList.contains '#' ||
      "hello world".toList.contains '\n' || "hello world".toList.contains '"' ||
      "hello world".toList.contains '\'') = true
     ∧ serializeEnv [("MESSAGE".toList, "hello world".toList)] =
        "MESSAGE".toList ++ '=' :: '"' ::
          (replaceChar '\t' ['\\', 't']
            (replaceChar '\r' ['\\', 'r']
              (replaceChar '\n' ['\\', 'n']
                (replaceChar '"' ['\\', '"']
                  (replaceChar '\\' ['\\', '\\'] "hello world".toList)))) ++
            ['"', '\n']))
    ∧ (("value".toList.contains ' ' || "value".toList.contains '#' ||
        "value".toList.contains '\n' || "value".toList.contains '"' ||
        "value".toList.contains '\'') = false
       ∧ serializeEnv [("KEY".toList, "value".toList)] =
          "KEY".toList ++ '=' :: ("value".toList ++ ['\n'])) :=
  ⟨⟨by decide, serializeEnv_spec.2.2.2.2 "MESSAGE".toList "hello world".toList
      (by decide)⟩,
   ⟨by decide, serializeEnv_spec.2.2.2.1 "KEY".toList "value".toList
      (by decide)⟩⟩

/-- A head character that is not in a list forces `head?` away from it. -/
theorem head_ne_of_not_mem {c : Char} {v : JStr} (h : c ∉ v) :
    v.head? ≠ some c := by
  intro hh
  cases v with
  | nil => simp at hh
  | cons a t =>
    have ha : a = c := Option.some.inj hh
    subst ha
    exact h (List.mem_cons_self _ _)

/-- Parsing newline-free content is parsing its single line. -/
theorem parseEnvContent_single {line : JStr} (h : '\n' ∉ line) :
    parseEnvContent line =
      match parseLine line with
      | some (k, v) => [(k, v)]
      | none => [] := by
  unfold parseEnvContent
  rw [splitOnNl_of_not_mem h]
  cases hp : parseLine line with
  | none => simp [hp]
  | some p =>
    cases p with
    | mk k v => simp [hp, jsInsert]

/-- Counterexample to C5 as stated: in the single-quoted value `'a\nb'`
the two-character sequence backslash-n is converted to a real newline by
`parseEnvContent`, not stored intact. -/
theorem escape_singleQuoted_counterexample :
    parseEnvContent ("KEY='a\\nb'".toList) = [("KEY".toList, ['a', '\n', 'b'])]
    ∧ parseEnvContent ("KEY='a\\nb'".toList) ≠
      [("KEY".toList, ['a', '\\', 'n', 'b'])] := by
  constructor
  · decide
  · decide

/-- C5 amended: the escape substitutions are applied to any value that
contains a backslash after quote stripping, regardless of quoting style —
a single-quoted and an unquoted value undergo exactly the same
substitutions as a double-quoted one. -/
theorem escape_any_value_amended (v : JStr)
    (h1 : '\n' ∉ v) (h2 : '"' ∉ v) (h3 : '\'' ∉ v)
    (h4 : jsTrim v = v) (h6 : '#' ∉ v) :
    parseEnvContent ("KEY='".toList ++ (v ++ ['\''])) =
      [("KEY".toList, if v.contains '\\' then unescapeValue v else v)]
    ∧ parseEnvContent ("KEY=".toList ++ v) =
      [("KEY".toList, if v.contains '\\' then unescapeValue v else v)] := by
  constructor
  · have hline : '\n' ∉ ("KEY='".toList ++ (v ++ ['\''])) := by
      intro hm
      rcases List.mem_append.mp hm with hm | hm
      · exact absurd hm (by decide)
      rcases List.mem_append.mp hm with hm | hm
      · exact h1 hm
      · exact absurd hm (by decide)
    have hrt : jsTrim ('\'' :: (v ++ ['\''])) = '\'' :: (v ++ ['\'']) := by
      apply jsTrim_eq_self
      · intro c hc
        have hcq : '\'' = c := by simpa using hc
        subst hcq; decide
      · intro c hc
        rw [show ('\'' :: (v ++ ['\''])) = ('\'' :: v) ++ ['\''] from by simp,
          List.getLast?_concat] at hc
        have hcq : '\'' = c := by simpa using hc
        subst hcq; decide
    rw [show ("KEY='".toList ++ (v ++ ['\''])) =
        "KEY".toList ++ '=' :: ('\'' :: (v ++ ['\''])) from rfl] at hline ⊢
    rw [parseEnvContent_single hline,
      parseLine_split "KEY".toList _ (by decide) (by decide) (by decide)
        (by decide) hrt, cookValue_squoted]
  · have hline : '\n' ∉ ("KEY=".toList ++ v) := by
      intro hm
      rcases List.mem_append.mp hm with hm | hm
      · exact absurd hm (by decide)
      · exact h1 hm
    rw [show ("KEY=".toList ++ v) = "KEY".toList ++ '=' :: v from rfl] at hline ⊢
    rw [parseEnvContent_single hline,
      parseLine_split "KEY".toList v (by decide) (by decide) (by decide)
        (by decide) h4,
      cookValue_unquoted (head_ne_of_not_mem h2) (head_ne_of_not_mem h3) h6]

/-- Witness for C5 amended: the single-quoted value `a\nb`, whose parse
applies the newline substitution. -/
theorem escape_any_value_amended_witness :
    parseEnvContent ("KEY='".toList ++ (['a', '\\', 'n', 'b'] ++ ['\''])) =
      [("KEY".toList,
        if List.contains ['a', '\\', 'n', 'b'] '\\' then
          unescapeValue ['a', '\\', 'n', 'b']
        else ['a', '\\', 'n', 'b'])] :=
  (escape_any_value_amended ['a', '\\', 'n', 'b'] (by decide) (by decide)
    (by decide) (by decide) (by decide)).1

/-- Counterexample to C6 as stated: in the unquoted value `a\#b` the `#`
is preceded by a backslash, yet `parseEnvContent` still truncates there —
the result keeps only `a\`, dropping `b`, instead of treating the `#` as
escaped. -/
theorem hash_backslash_counterexample :
    parseEnvContent ("KEY=a\\#b".toList) = [("KEY".toList, ['a', '\\'])]
    ∧ parseEnvContent ("KEY=a\\#b".toList) ≠
      [("KEY".toList, ['a', '\\', '#', 'b'])]
    ∧ parseEnvContent ("KEY=a\\#b".toList) ≠ [("KEY".toList, ['a', '#', 'b'])] := by
  refine ⟨by decide, by decide, by decide⟩

/-- C6 amended: a value that starts with a quote character — double or
single — is never truncated at `#` (scenario A included verbatim, and
likewise for a single-quoted value containing `#`); a value that does
not start with a quote character is truncated at the first `#` — whether
or not that `#` is preceded by a backslash — and the kept prefix is
trimmed before the remaining processing. -/
theorem inline_comment_amended :
    (∀ v : JStr, '\n' ∉ v → '"' ∉ v → '\'' ∉ v → jsTrim v = v →
      parseEnvContent ("KEY=\"".toList ++ (v ++ ['"'])) =
        [("KEY".toList, if v.contains '\\' then unescapeValue v else v)])
    ∧ (∀ v : JStr, '\n' ∉ v → '"' ∉ v → '\'' ∉ v → jsTrim v = v →
        parseEnvContent ("KEY='".toList ++ (v ++ ['\''])) =
          [("KEY".toList, if v.contains '\\' then unescapeValue v else v)])
    ∧ (∀ (v : JStr) (i : Nat), '\n' ∉ v → jsTrim v = v →
        v.head? ≠ some '"' → v.head? ≠ some '\'' →
        firstIdx '#' v = some i →
        parseEnvContent ("KEY=".toList ++ v) =
          [("KEY".toList,
            if (jsTrim (v.take i)).contains '\\' then
              unescapeValue (jsTrim (v.take i))
            else jsTrim (v.take i))])
    ∧ parseEnvContent ("KEY=\"value # not a comment\"".toList) =
        [("KEY".toList, "value # not a comment".toList)]
    ∧ parseEnvContent ("KEY='value # not a comment'".toList) =
        [("KEY".toList, "value # not a comment".toList)] := by
  refine ⟨?_, ?_, ?_, by decide, by decide⟩
  · intro v h1 h2 h3 h4
    have hline : '\n' ∉ ("KEY=\"".toList ++ (v ++ ['"'])) := by
      intro hm
      rcases List.mem_append.mp hm with hm | hm
      · exact absurd hm (by decide)
      rcases List.mem_append.mp hm with hm | hm
      · exact h1 hm
      · exact absurd hm (by decide)
    have hrt : jsTrim ('"' :: (v ++ ['"'])) = '"' :: (v ++ ['"']) := by
      apply jsTrim_eq_self
      · intro c hc
        have hcq : '"' = c := by simpa using hc
        subst hcq; decide
      · intro c hc
        rw [show ('"' :: (v ++ ['"'])) = ('"' :: v) ++ ['"'] from by simp,
          List.getLast?_concat] at hc
        have hcq : '"' = c := by simpa using hc
        subst hcq; decide
    rw [show ("KEY=\"".toList ++ (v ++ ['"'])) =
        "KEY".toList ++ '=' :: ('"' :: (v ++ ['"'])) from rfl] at hline ⊢
    rw [parseEnvContent_single hline,
      parseLine_split "KEY".toList _ (by decide) (by decide) (by decide)
        (by decide) hrt, cookValue_dquoted]
  · intro v h1 h2 h3 h4
    have hline : '\n' ∉ ("KEY='".toList ++ (v ++ ['\''])) := by
      intro hm
      rcases List.mem_append.mp hm with hm | hm
      · exact absurd hm (by decide)
      rcases List.mem_append.mp hm with hm | hm
      · exact h1 hm
      · exact absurd hm (by decide)
    have hrt : jsTrim ('\'' :: (v ++ ['\''])) = '\'' :: (v ++ ['\'']) := by
      apply jsTrim_eq_self
      · intro c hc
        have hcq : '\'' = c := by simpa using hc
        subst hcq; decide
      · intro c hc
        rw [show ('\'' :: (v ++ ['\''])) = ('\'' :: v) ++ ['\''] from by simp,
          List.getLast?_concat] at hc
        have hcq : '\'' = c := by simpa using hc
        subst hcq; decide
    rw [show ("KEY='".toList ++ (v ++ ['\''])) =
        "KEY".toList ++ '=' :: ('\'' :: (v ++ ['\''])) from rfl] at hline ⊢
    rw [parseEnvContent_single hline,
      parseLine_split "KEY".toList _ (by decide) (by decide) (by decide)
        (by decide) hrt, cookValue_squoted]
  · intro v i h1 h4 hq1 hq2 hidx
    have hline : '\n' ∉ ("KEY=".toList ++ v) := by
      intro hm
      rcases List.mem_append.mp hm with hm | hm
      · exact absurd hm (by decide)
      · exact h1 hm
    have hstrip : stripQuotes (commentCut v) = jsTrim (v.take i) := by
      rw [commentCut_hash hq1 hq2 hidx]
      cases i with
      | zero =>
        rw [show v.take 0 = [] from rfl, jsTrim_nil]
        exact stripQuotes_of_head (by simp) (by simp)
      | succ i' =>
        cases v with
        | nil => simp [firstIdx] at hidx
        | cons a t =>
          have ha : isJsWs a = false := jsTrim_fix_head h4 rfl
          have hha : a ≠ '"' := fun he => hq1 (by rw [he]; rfl)
          have hhb : a ≠ '\'' := fun he => hq2 (by rw [he]; rfl)
          rw [show (a :: t).take (i' + 1) = a :: t.take i' from rfl]
          apply stripQuotes_of_head
          · rw [head?_jsTrim_cons ha]
            simpa using hha
          · rw [head?_jsTrim_cons ha]
            simpa using hhb
    rw [show ("KEY=".toList ++ v) = "KEY".toList ++ '=' :: v from rfl] at hline ⊢
    rw [parseEnvContent_single hline,
      parseLine_split "KEY".toList v (by decide) (by decide) (by decide)
        (by decide) h4, cookValue_of_strip hstrip]

/-- Witness for C6 amended: a single-quoted value keeps its `#`, and the
unquoted value `a\#b` is truncated at the backslash-escaped `#`, both
applied through the amended theorem. -/
theorem inline_comment_amended_witness :
    parseEnvContent ("KEY='".toList ++ (['a', '#', 'b'] ++ ['\''])) =
      [("KEY".toList,
        if List.contains ['a', '#', 'b'] '\\' then
          unescapeValue ['a', '#', 'b']
        else ['a', '#', 'b'])]
    ∧ parseEnvContent ("KEY=".toList ++ ['a', '\\', '#', 'b']) =
      [("KEY".toList,
        if (jsTrim (['a', '\\', '#', 'b'].take 2)).contains '\\' then
          unescapeValue (jsTrim (['a', '\\', '#', 'b'].take 2))
        else jsTrim (['a', '\\', '#', 'b'].take 2))] :=
  ⟨inline_comment_amended.2.1 ['a', '#', 'b'] (by decide) (by decide)
      (by decide) (by decide),
   inline_comment_amended.2.2.1 ['a', '\\', '#', 'b'] 2 (by decide) (by decide)
      (by decide) (by decide) (by decide)⟩

/-- Splitting content that ends with a non-newline character yields a
final line that ends with that character (in particular, a non-empty
final line). -/
theorem splitOnNl_snoc_other {c : Char} (hc : c ≠ '\n') :
    ∀ u : JStr, ∃ t l, splitOnNl (u ++ [c]) = t ++ [l ++ [c]]
  | [] => ⟨[], [], by simp [splitOnNl, hc]⟩
  | x :: u => by
    obtain ⟨t, l, ih⟩ := splitOnNl_snoc_other hc u
    rw [List.cons_append]
    by_cases hx : x = '\n'
    · subst hx
      refine ⟨[] :: t, l, ?_⟩
      simp only [splitOnNl]
      rw [ih]
      cases t <;> simp
    · cases t with
      | nil =>
        refine ⟨[], x :: l, ?_⟩
        simp only [splitOnNl]
        rw [ih]
        simp [hx]
      | cons t0 t' =>
        refine ⟨(x :: t0) :: t', l, ?_⟩
        simp only [splitOnNl]
        rw [ih]
        simp [hx]

/-- Unfolding equation for `updateEnvContent`. -/
theorem updateEnvContent_eq (key value content : JStr) :
    updateEnvContent key value content =
      match findMatchIdx key (splitOnNl content) with
      | some i => joinNl ((splitOnNl content).set i (updLineFor key value))
      | none =>
        match (splitOnNl content).getLast? with
        | none => joinNl [updLineFor key value, []]
        | some last =>
          if last = [] then
            joinNl ((splitOnNl content).dropLast ++ [updLineFor key value, []])
          else joinNl (splitOnNl content ++ [updLineFor key value]) := rfl

/-- Unfolding of `updateEnvContent` in the no-match case, once the last
line is known. -/
theorem updateEnvContent_none_last (key value content : JStr) {last : JStr}
    (h : findMatchIdx key (splitOnNl content) = none)
    (hl : (splitOnNl content).getLast? = some last) :
    updateEnvContent key value content =
      if last = [] then
        joinNl ((splitOnNl content).dropLast ++ [updLineFor key value, []])
      else joinNl (splitOnNl content ++ [updLineFor key value]) := by
  rw [updateEnvContent_eq, h, hl]

/-- `findMatchIdx` returns an in-range index of a matching line, and
every earlier line does not match. -/
theorem findMatchIdx_spec {key : JStr} :
    ∀ {ls : List JStr} {i : Nat}, findMatchIdx key ls = some i →
      i < ls.length ∧ keyMatches key (ls.getD i []) = true ∧
      ∀ j, j < i → keyMatches key (ls.getD j []) = false := by
  intro ls
  induction ls with
  | nil => intro i h; simp [findMatchIdx] at h
  | cons l ls ih =>
    intro i h
    by_cases hm : keyMatches key l
    · unfold findMatchIdx at h
      rw [if_pos hm] at h
      have hi : 0 = i := Option.some.inj h
      subst hi
      exact ⟨by simp, by simpa using hm, fun j hj => absurd hj (by omega)⟩
    · unfold findMatchIdx at h
      rw [if_neg hm] at h
      cases hf : findMatchIdx key ls with
      | none => rw [hf] at h; simp at h
      | some i' =>
        rw [hf] at h
        have hi : i' + 1 = i := by simpa using h
        subst hi
        obtain ⟨hlen, hmat, hpre⟩ := ih hf
        refine ⟨by simpa using Nat.succ_lt_succ hlen, by simpa using hmat, ?_⟩
        intro j hj
        cases j with
        | zero =>
          rw [Bool.not_eq_true] at hm
          simpa using hm
        | succ j' => simpa using hpre j' (by omega)

/-- C8: when a line matching `^key\s*=` exists, `updateEnvVariable`'s
text transform replaces exactly that line — the output is the original
line list with one index overwritten, every other index holding the
original line verbatim, in the same position. -/
theorem updateEnv_frame (key value content : JStr) (i : Nat)
    (h : findMatchIdx key (splitOnNl content) = some i) :
    updateEnvContent key value content =
      joinNl ((splitOnNl content).set i (updLineFor key value))
    ∧ keyMatches key ((splitOnNl content).getD i []) = true
    ∧ (∀ j, j ≠ i →
        ((splitOnNl content).set i (updLineFor key value))[j]? =
          (splitOnNl content)[j]?) := by
  refine ⟨?_, (findMatchIdx_spec h).2.1, ?_⟩
  · rw [updateEnvContent_eq, h]
  · intro j hj
    exact List.getElem?_set_ne (Ne.symm hj)

/-- Witness for C8: replacing `KEY=old` in a four-line file keeps the
comment line at index 1 verbatim. -/
theorem updateEnv_frame_witness :
    updateEnvContent "KEY".toList "new".toList
        "A=1\n# c\nKEY=old\nB=2\n".toList =
      joinNl ((splitOnNl "A=1\n# c\nKEY=old\nB=2\n".toList).set 2
        (updLineFor "KEY".toList "new".toList))
    ∧ ((splitOnNl "A=1\n# c\nKEY=old\nB=2\n".toList).set 2
        (updLineFor "KEY".toList "new".toList))[1]? =
      (splitOnNl "A=1\n# c\nKEY=old\nB=2\n".toList)[1]? := by
  have h := updateEnv_frame "KEY".toList "new".toList
    "A=1\n# c\nKEY=old\nB=2\n".toList 2 (by decide)
  exact ⟨h.1, h.2.2 1 (by decide)⟩

/-- Counterexample to C9 as stated: with existing content `A=1` (no
trailing newline) and no matching line, the appended output is
`A=1\nKEY=v`, which does not end with a newline at all. -/
theorem updateEnv_no_trailing_nl_counterexample :
    findMatchIdx "KEY".toList (splitOnNl "A=1".toList) = none
    ∧ updateEnvContent "KEY".toList "v".toList "A=1".toList =
        "A=1\nKEY=v".toList
    ∧ ("A=1\nKEY=v".toList).getLast? ≠ some '\n' := by
  refine ⟨by decide, by decide, by decide⟩

/-- C9 amended: when no line matches, the new `key=value` line (quoted
when the value contains a space, `#`, or newline) is appended; if the
prior content was empty or ended with a newline, the output is the prior
content, the new line, and exactly one trailing newline; if the prior
content was non-empty without a trailing newline, the new line follows a
separating newline and the output has no trailing newline. -/
theorem updateEnv_append_amended (key value content : JStr)
    (h : findMatchIdx key (splitOnNl content) = none) :
    (updLineFor key value).getLast? ≠ some '\n'
    ∧ (content = [] ∨ content.getLast? = some '\n' →
        updateEnvContent key value content =
          content ++ (updLineFor key value ++ ['\n']))
    ∧ (content ≠ [] → content.getLast? ≠ some '\n' →
        updateEnvContent key value content =
          content ++ '\n' :: updLineFor key value) := by
  refine ⟨?_, ?_, ?_⟩
  · by_cases hnq :
      (value.contains ' ' || value.contains '#' || value.contains '\n') = true
    · unfold updLineFor
      rw [if_pos hnq,
        show key ++ '=' :: '"' :: (value ++ ['"']) =
          (key ++ '=' :: '"' :: value) ++ ['"'] from by simp,
        List.getLast?_concat]
      simp
    · unfold updLineFor
      rw [if_neg hnq, List.getLast?_append_cons]
      have hn : '\n' ∉ value := by
        simp only [Bool.or_eq_true, not_or, Bool.not_eq_true] at hnq
        exact not_mem_of_contains_false hnq.2
      cases value with
      | nil => decide
      | cons a t =>
        rw [List.getLast?_cons_cons]
        intro hl
        obtain ⟨hne, heq⟩ := List.mem_getLast?_eq_getLast
          (show '\n' ∈ (a :: t).getLast? from by rw [hl]; rfl)
        exact hn (heq ▸ List.getLast_mem hne)
  · intro hc
    rcases hc with rfl | hc
    · rw [updateEnvContent_eq, h]
      rfl
    · have hne : content ≠ [] := by
        rintro rfl; simp at hc
      obtain ⟨u, rfl⟩ : ∃ u, content = u ++ ['\n'] := by
        refine ⟨content.dropLast, ?_⟩
        obtain ⟨hne', heq⟩ := List.mem_getLast?_eq_getLast
          (show '\n' ∈ content.getLast? from by rw [hc]; rfl)
        conv_lhs => rw [← List.dropLast_append_getLast hne', ← heq]
      have hl : (splitOnNl (u ++ ['\n'])).getLast? = some [] := by
        rw [splitOnNl_snoc_nl]
        exact List.getLast?_concat _
      rw [updateEnvContent_none_last key value _ h hl, if_pos rfl,
        splitOnNl_snoc_nl, List.dropLast_concat,
        show splitOnNl u ++ [updLineFor key value, []] =
          (splitOnNl u ++ [updLineFor key value]) ++ [[]] from by simp,
        joinNl_append_single _ _ (by simp),
        joinNl_append_single _ _ (splitOnNl_ne_nil u),
        joinNl_splitOnNl]
      simp
  · intro hne hlast
    obtain ⟨u, c, rfl⟩ : ∃ u c, content = u ++ [c] := by
      refine ⟨content.dropLast, content.getLast hne, ?_⟩
      rw [List.dropLast_append_getLast hne]
    have hcnl : c ≠ '\n' := by
      intro hcc
      subst hcc
      exact hlast (List.getLast?_concat u)
    obtain ⟨t, l, hsp⟩ := splitOnNl_snoc_other hcnl u
    have hl : (splitOnNl (u ++ [c])).getLast? = some (l ++ [c]) := by
      rw [hsp]
      exact List.getLast?_concat _
    rw [updateEnvContent_none_last key value _ h hl, if_neg (by simp),
      joinNl_append_single _ _ (splitOnNl_ne_nil _), joinNl_splitOnNl]

/-- Witness for C9 amended: appending to `A=1` (no trailing newline)
yields a separating newline but no trailing newline. -/
theorem updateEnv_append_amended_witness :
    updateEnvContent "KEY".toList "v".toList "A=1".toList =
      "A=1".toList ++ '\n' :: updLineFor "KEY".toList "v".toList :=
  (updateEnv_append_amended "KEY".toList "v".toList "A=1".toList
    (by decide)).2.2 (by decide) (by decide)

/-- C10: with several lines matching `^key\s*=`, only the first is
replaced — every earlier index was a non-match and every later line
(matching or not) is left at its position unchanged; and since
`parseEnvContent` gives duplicate keys last-occurrence-wins semantics,
re-parsing `K=old1\nK=old2\n` after updating `K` to `new` still yields
the old value `old2`, exactly as re-parsing the original did. -/
theorem updateEnv_first_match_only :
    (∀ (key value content : JStr) (i : Nat),
      findMatchIdx key (splitOnNl content) = some i →
      (∀ j, j < i → keyMatches key ((splitOnNl content).getD j []) = false)
      ∧ ∀ j, i < j →
          ((splitOnNl content).set i (updLineFor key value))[j]? =
            (splitOnNl content)[j]?)
    ∧ updateEnvContent "K".toList "new".toList "K=old1\nK=old2\n".toList =
        "K=new\nK=old2\n".toList
    ∧ keyMatches "K".toList "K=old2".toList = true
    ∧ parseEnvContent "K=new\nK=old2\n".toList = [("K".toList, "old2".toList)]
    ∧ parseEnvContent "K=old1\nK=old2\n".toList =
        [("K".toList, "old2".toList)] := by
  refine ⟨?_, by decide, by decide, by decide, by decide⟩
  intro key value content i h
  exact ⟨(findMatchIdx_spec h).2.2,
    fun j hj => List.getElem?_set_ne (by omega)⟩

/-- Witness for C10: in `K=old1\nK=old2\n` the first line is the match
and the second (also matching) line is untouched by the replacement. -/
theorem updateEnv_first_match_only_witness :
    ((splitOnNl "K=old1\nK=old2\n".toList).set 0
        (updLineFor "K".toList "new".toList))[1]? =
      (splitOnNl "K=old1\nK=old2\n".toList)[1]? :=
  (updateEnv_first_match_only.1 "K".toList "new".toList
    "K=old1\nK=old2\n".toList 0 (by decide)).2 1 (by decide)

theorem canSee_ne (a : AccessLevel) (h : a ≠ .HIDDEN) : canSee a = true := by
  cases a
  · rfl
  · rfl
  · rfl
  · rfl
  · exact absurd rfl h

/-- The keys of the filtered projection are exactly the non-HIDDEN keys,
in the order of the key list being projected. -/
theorem map_key_filterMap_projectVar (env : EnvMap) (manifest : Manifest) :
    ∀ ks : List JStr,
      (ks.filterMap (projectVar env manifest)).map (·.key) =
        ks.filter (fun k => canSee (effAccess manifest k))
  | [] => rfl
  | k :: ks => by
    by_cases h : (effConfig manifest k).access = .HIDDEN
    · have hsee : canSee (effAccess manifest k) = false := by
        have he : effAccess manifest k = .HIDDEN := h
        rw [he]
        rfl
      have hproj : projectVar env manifest k = none := by
        unfold projectVar
        rw [if_pos h]
      simp [List.filterMap_cons, hproj, List.filter_cons, hsee,
        map_key_filterMap_projectVar env manifest ks]
    · have hsee : canSee (effAccess manifest k) = true := canSee_ne _ h
      have hproj : projectVar env manifest k =
          some ⟨k, getDisplayValue k (List.lookup k env) (effConfig manifest k),
            (effConfig manifest k).access,
            canModify (effConfig manifest k).access⟩ := by
        unfold projectVar
        rw [if_neg h]
      simp [List.filterMap_cons, hproj, List.filter_cons, hsee,
        map_key_filterMap_projectVar env manifest ks]

/-- C1: `filterForAI` emits one entry per key of the union of the env's
and the manifest's key sets whose effective access is not HIDDEN (its key
list equals the sorted, deduplicated union filtered by visibility), omits
every HIDDEN key, synthesizes the PLACEHOLDER projection — display value
`<KEY>`, `canModify` false — for keys absent from the manifest, emits the
entries in strictly ascending lexical key order, and on the empty
manifest with env `{UNKNOWN: "v"}` returns exactly the one PLACEHOLDER
entry for `UNKNOWN`. -/
theorem filterForAI_spec :
    (∀ (env : EnvMap) (manifest : Manifest),
      (filterForAI env manifest).map (·.key) =
        (sortedUnionKeys env manifest).filter
          (fun k => canSee (effAccess manifest k)))
    ∧ (∀ (env : EnvMap) (manifest : Manifest) (e : AIVisibleVariable),
        e ∈ filterForAI env manifest →
        e.key ∈ unionKeys env manifest
        ∧ canSee (effAccess manifest e.key) = true
        ∧ (List.lookup e.key manifest.vars = none →
            e.displayValue = '<' :: (e.key ++ ['>'])
            ∧ e.access = .PLACEHOLDER ∧ e.canModify = false))
    ∧ (∀ (env : EnvMap) (manifest : Manifest),
        List.Pairwise (fun a b : AIVisibleVariable => a.key < b.key)
          (filterForAI env manifest))
    ∧ filterForAI [("UNKNOWN".toList, "v".toList)] ⟨1, []⟩ =
        [⟨"UNKNOWN".toList, "<UNKNOWN>".toList, .PLACEHOLDER, false⟩] := by
  refine ⟨?_, ?_, ?_, by decide⟩
  · intro env manifest
    exact map_key_filterMap_projectVar env manifest _
  · intro env manifest e he
    obtain ⟨k, hk, hp⟩ := List.mem_filterMap.mp he
    by_cases h : (effConfig manifest k).access = .HIDDEN
    · rw [show projectVar env manifest k = none from by
        unfold projectVar; rw [if_pos h]] at hp
      exact absurd hp (by simp)
    · have hp' : e = ⟨k, getDisplayValue k (List.lookup k env)
          (effConfig manifest k), (effConfig manifest k).access,
          canModify (effConfig manifest k).access⟩ := by
        unfold projectVar at hp
        rw [if_neg h] at hp
        exact (Option.some.inj hp).symm
      subst hp'
      refine ⟨?_, canSee_ne _ h, ?_⟩
      · simpa [sortedUnionKeys, List.mem_insertionSort] using hk
      · intro hnone
        have hcfg : effConfig manifest k = getDefaultConfig := by
          unfold effConfig
          rw [hnone]
          rfl
        refine ⟨?_, ?_, ?_⟩
        · show getDisplayValue k (List.lookup k env) (effConfig manifest k) =
            '<' :: (k ++ ['>'])
          rw [hcfg]
          rfl
        · show (effConfig manifest k).access = .PLACEHOLDER
          rw [hcfg]
          rfl
        · show canModify (effConfig manifest k).access = false
          rw [hcfg]
          rfl
  · intro env manifest
    have hsorted : List.Sorted (· ≤ ·) (sortedUnionKeys env manifest) :=
      List.sorted_insertionSort _ _
    have hnodup : (sortedUnionKeys env manifest).Nodup :=
      (List.perm_insertionSort _ _).nodup_iff.mpr (List.nodup_dedup _)
    have hlt : List.Pairwise (· < ·) (sortedUnionKeys env manifest) :=
      hsorted.lt_of_le hnodup
    have hfil : List.Pairwise (· < ·)
        ((filterForAI env manifest).map (·.key)) := by
      rw [show filterForAI env manifest =
          (sortedUnionKeys env manifest).filterMap (projectVar env manifest)
        from rfl, map_key_filterMap_projectVar env manifest _]
      exact hlt.sublist (List.filter_sublist _)
    exact (List.pairwise_map.mp hfil).imp fun h => h

/-- Witness for C1: the scenario-D entry is in the projection and its key
is a visible member of the union. -/
theorem filterForAI_spec_witness :
    "UNKNOWN".toList ∈ unionKeys [("UNKNOWN".toList, "v".toList)] ⟨1, []⟩
    ∧ canSee (effAccess ⟨1, []⟩ "UNKNOWN".toList) = true := by
  have h := filterForAI_spec.2.1 [("UNKNOWN".toList, "v".toList)] ⟨1, []⟩
    ⟨"UNKNOWN".toList, "<UNKNOWN>".toList, .PLACEHOLDER, false⟩ (by decide)
  exact ⟨h.1, h.2.1⟩

end Envibe
